import Mathlib

/-!
Shallow embedding of the two-pass palette recoloring pipeline from
src/colorize.rs.

Modelling conventions:
- `f32` values are modelled as exact rationals (`ℚ`).  Every concrete input
  used in a counterexample or witness is chosen so that the corresponding
  `f32` computation is exact, hence the rational model agrees with the
  machine computation at that input.
- 8-bit channels (`u8`) are modelled as `ℕ` together with `≤ 255` bounds
  where a statement needs them.
- The external collaborators (the `palette` crate color conversions and
  perceptual difference metric, and the numeric utilities `apply_dithering`,
  `compute_integral_image`, `fast_spatial_color_average`,
  `lab_to_image_rgb`) are not part of this repository; they are modelled as
  abstract function parameters collected in the structure `Ext`, exactly as
  the spec specifies them by contract only.
- The rayon parallel loops `(0..total_pixels).into_par_iter().for_each`
  are modelled as a left fold of the per-pixel body over an explicit list
  of indices (a schedule).  A run of the program corresponds to some
  schedule enumerating `0..width*height`; scheduling nondeterminism is
  captured by quantifying over the schedule.
- The `HashMap` color cache is modelled as an association list with
  first-match lookup and cons insertion (observationally equivalent to
  lookup/insert on a map).
- Rust `Iterator::min_by` keeps the earlier element on ties (it replaces
  the accumulator only when the comparison yields Greater); the fold in
  `find_closest_color` mirrors that.
- A Rust `expr as u8` cast from a float truncates toward zero and
  saturates into `[0, 255]`; `u8::clamp(0, 255)` afterwards is modelled
  verbatim even though it is the identity on `u8`.
- Panics (the `unwrap()` calls reachable on an empty palette or NaN
  distances) are modelled by `Option`: a `none` result marks a panic.
-/

namespace Colorizer

/-- Perceptual color: lightness plus two chroma axes (palette crate `Lab`). -/
structure Lab where
  l : ℚ
  a : ℚ
  b : ℚ
deriving DecidableEq

/-- Output-space pixel with three 8-bit channels (`image::Rgb<u8>`). -/
structure Rgb where
  r : ℕ
  g : ℕ
  b : ℕ
deriving DecidableEq

/-- An image: dimensions plus a pixel function (`DynamicImage` / `RgbImage`). -/
structure Image where
  width : ℕ
  height : ℕ
  pix : ℕ → ℕ → Rgb

/-- Carrier for the integral image built by `compute_integral_image`;
its internals are external to this repository, so it is an abstract
table of per-cell rational data. -/
structure IntegralImage where
  data : ℕ → ℕ → ℚ × ℚ × ℚ

/-- Configuration consumed by the pipeline (`AppConfig`). -/
structure AppConfig where
  colors : List Lab
  dither_amount : ℚ
  spatial_averaging_radius : ℕ
  blend_factor : ℚ

/-- External collaborators, specified by contract only (palette crate
conversions and metric, and the numeric utilities of `crate::utils`). -/
structure Ext where
  improvedDifference : Lab → Lab → ℚ
  srgbToLab : ℚ → ℚ → ℚ → Lab
  labToRgb : Lab → Rgb
  applyDithering : Lab → Lab → ℚ → Lab
  computeIntegralImage : Image → IntegralImage
  fastSpatialColorAverage : ℕ → ℕ → ℕ → ℕ → ℕ → IntegralImage → Lab

/-- Cache key: the exact 3-channel pixel (`[u8; 3]`). -/
abbrev Key := ℕ × ℕ × ℕ

/-- Color cache (`HashMap<[u8; 3], Lab>`), as an association list. -/
abbrev Cache := List (Key × Lab)

/-- First-match association-list lookup, modelling `HashMap::get`. -/
def lookupCache : Cache → Key → Option Lab
  | [], _ => none
  | (k, v) :: rest, key => if k = key then some v else lookupCache rest key

/-- Embeds `get_coordinates`: index `i` maps to `(i % width, i / width)`. -/
def get_coordinates (i : ℕ) (width : ℕ) : ℕ × ℕ :=
  (i % width, i / width)

/-- Embeds `get_lab_color`: read a pixel, scale channels by 1/255 and
convert to the perceptual space. -/
def get_lab_color (E : Ext) (img : Image) (x y : ℕ) : Lab :=
  let p := img.pix x y
  E.srgbToLab ((p.r : ℚ) / 255) ((p.g : ℚ) / 255) ((p.b : ℚ) / 255)

/-- Embeds `find_closest_color`: `iter().min_by(..)` over the palette,
comparing `original.improved_difference`.  Rust `min_by` keeps the
accumulator unless the comparison is `Greater`, i.e. it replaces it only
when the candidate is strictly smaller, so ties keep the earliest entry.
`none` models the `unwrap()` panic on an empty palette. -/
def find_closest_color (E : Ext) (original : Lab) (colors : List Lab) : Option Lab :=
  match colors with
  | [] => none
  | c :: rest =>
      some (rest.foldl
        (fun acc x =>
          if E.improvedDifference original x < E.improvedDifference original acc then x else acc)
        c)

/-- Embeds `find_closest_color` with a NaN-aware metric: the metric
returns `none` for NaN, and a `none` comparison anywhere (the
`partial_cmp(..).unwrap()` inside the `min_by` closure) aborts the fold,
modelling the panic. -/
def find_closest_color_nanAware (d : Lab → Option ℚ) (colors : List Lab) : Option Lab :=
  match colors with
  | [] => none
  | c :: rest =>
      rest.foldl
        (fun acc x =>
          match acc with
          | none => none
          | some a =>
            match d a, d x with
            | some da, some dx => some (if dx < da then x else a)
            | _, _ => none)
        (some c)

/-- Embeds `memoized_find_closest_color`.  On a hit the cached value is
returned and the cache is unchanged; on a miss the pixel is converted to
perceptual space, matched against the palette, recombined with the
original lightness, stored, and returned.  The `getD` default is never
reached for a non-empty palette (in Rust this path is the `unwrap()`
panic inside `find_closest_color`). -/
def memoized_find_closest_color (E : Ext) (cache : Cache) (pixel : Rgb)
    (colors : List Lab) : Lab × Cache :=
  let key : Key := (pixel.r, pixel.g, pixel.b)
  match lookupCache cache key with
  | some lab => (lab, cache)
  | none =>
    let originalLab := E.srgbToLab ((pixel.r : ℚ) / 255) ((pixel.g : ℚ) / 255)
      ((pixel.b : ℚ) / 255)
    let closest := (find_closest_color E originalLab colors).getD ⟨0, 0, 0⟩
    let colorizedLab := Lab.mk originalLab.l closest.a closest.b
    (colorizedLab, (key, colorizedLab) :: cache)

/-- The value `memoized_find_closest_color` computes for a key on a miss;
it depends only on the key, the palette and the external functions, which
is what makes concurrent duplicate derivations benign. -/
def canonicalCacheValue (E : Ext) (colors : List Lab) (k : Key) : Lab :=
  let originalLab := E.srgbToLab ((k.1 : ℚ) / 255) ((k.2.1 : ℚ) / 255) ((k.2.2 : ℚ) / 255)
  let closest := (find_closest_color E originalLab colors).getD ⟨0, 0, 0⟩
  Lab.mk originalLab.l closest.a closest.b

/-- Rust saturating float-to-`u8` cast: truncate toward zero, saturate
into `[0, 255]`. -/
def f32ToU8Sat (q : ℚ) : ℕ :=
  if q < 0 then 0 else min (⌊q⌋.toNat) 255

/-- Rust `u8::clamp(0, 255)` applied after the cast (identity on `u8`,
modelled verbatim). -/
def u8clamp (n : ℕ) : ℕ :=
  min (max n 0) 255

/-- One channel of `blend_colors`:
`((c1 as f32 * f + c2 as f32 * (1.0 - f)) as u8).clamp(0, 255)`. -/
def blendChannel (c1 c2 : ℕ) (f : ℚ) : ℕ :=
  u8clamp (f32ToU8Sat ((c1 : ℚ) * f + (c2 : ℚ) * (1 - f)))

/-- Embeds `blend_colors`, channelwise. -/
def blend_colors (color1 color2 : Rgb) (blend_factor : ℚ) : Rgb :=
  ⟨blendChannel color1.r color2.r blend_factor,
   blendChannel color1.g color2.g blend_factor,
   blendChannel color1.b color2.b blend_factor⟩

/-- Follows the spec words for C4 (not the source): each blended channel
is `f * recolored + (1 - f) * original` rounded to the nearest integer
and clamped into `[0, 255]`. -/
def blendChannelSpecRounded (c1 c2 : ℕ) (f : ℚ) : ℕ :=
  (min (max (round ((c1 : ℚ) * f + (c2 : ℚ) * (1 - f))) 0) 255).toNat

/-- Follows the spec words for C4 (not the source): `blend_colors` with
round-to-nearest channels. -/
def blend_colors_specRounded (color1 color2 : Rgb) (blend_factor : ℚ) : Rgb :=
  ⟨blendChannelSpecRounded color1.r color2.r blend_factor,
   blendChannelSpecRounded color1.g color2.g blend_factor,
   blendChannelSpecRounded color1.b color2.b blend_factor⟩

/-- Specification predicate: `n` is the saturating truncation of the
rational `q` into `[0, 255]` (truncate toward zero, saturate at the
ends). -/
def truncSatOf (q : ℚ) (n : ℕ) : Prop :=
  n ≤ 255 ∧ (0 ≤ q → n = min (⌊q⌋.toNat) 255) ∧ (q < 0 → n = 0)

/-- Output buffer (`ImageBuffer::new` starts zero-filled). -/
abbrev Buffer := ℕ → ℕ → Rgb

/-- The zero-initialized buffer created by `ImageBuffer::new`. -/
def emptyBuffer : Buffer := fun _ _ => ⟨0, 0, 0⟩

/-- Embeds `put_pixel`: overwrite one coordinate. -/
def putPixel (buf : Buffer) (x y : ℕ) (c : Rgb) : Buffer :=
  fun a b => if a = x ∧ b = y then c else buf a b

/-- A parallel per-pixel loop whose written value depends only on the
index: process the schedule in order, writing `val i` at
`get_coordinates i width`. -/
def writeSched (width : ℕ) (val : ℕ → Rgb) : List ℕ → Buffer → Buffer
  | [], buf => buf
  | i :: rest, buf =>
      let xy := get_coordinates i width
      writeSched width val rest (putPixel buf xy.1 xy.2 (val i))

/-- One iteration of the pass-1 parallel loop body: map the pixel through
the memoized palette match, dither, convert back and write. -/
def pass1Step (E : Ext) (img : Image) (config : AppConfig)
    (st : Cache × Buffer) (i : ℕ) : Cache × Buffer :=
  let xy := get_coordinates i img.width
  let pixel := img.pix xy.1 xy.2
  let res := memoized_find_closest_color E st.1 pixel config.colors
  let ditheredColor := E.applyDithering res.1 res.1 config.dither_amount
  let newPixel := E.labToRgb ditheredColor
  (res.2, putPixel st.2 xy.1 xy.2 newPixel)

/-- Embeds `apply_color_mapping_and_dithering` run under a given
schedule of pixel indices, starting from an empty cache and a fresh
zero buffer. -/
def apply_color_mapping_and_dithering (E : Ext) (img : Image) (config : AppConfig)
    (sched : List ℕ) : Image :=
  let st := sched.foldl (pass1Step E img config) ([], emptyBuffer)
  ⟨img.width, img.height, st.2⟩

/-- The pass-1 pixel value as a pure function of the index (what any
schedule ends up writing, by cache determinism). -/
def pass1Canon (E : Ext) (img : Image) (config : AppConfig) (i : ℕ) : Rgb :=
  let xy := get_coordinates i img.width
  let pixel := img.pix xy.1 xy.2
  let lab := canonicalCacheValue E config.colors (pixel.r, pixel.g, pixel.b)
  E.labToRgb (E.applyDithering lab lab config.dither_amount)

/-- The perceptual color pass 2 builds before conversion and blending:
original lightness recombined with spatially averaged chroma. -/
def pass2FinalLab (E : Ext) (originalImg firstPassOutput : Image)
    (config : AppConfig) (x y : ℕ) : Lab :=
  let originalLab := get_lab_color E originalImg x y
  let averagedLab := E.fastSpatialColorAverage x y originalImg.width originalImg.height
    config.spatial_averaging_radius (E.computeIntegralImage firstPassOutput)
  Lab.mk originalLab.l averagedLab.a averagedLab.b

/-- The pass-2 output pixel at a coordinate: convert the recombined
perceptual color and blend with the original pixel. -/
def pass2Pixel (E : Ext) (originalImg firstPassOutput : Image)
    (config : AppConfig) (x y : ℕ) : Rgb :=
  let finalRgb := E.labToRgb (pass2FinalLab E originalImg firstPassOutput config x y)
  blend_colors finalRgb (originalImg.pix x y) config.blend_factor

/-- Embeds `apply_spatial_averaging_and_luminance_transfer` run under a
given schedule of pixel indices. -/
def apply_spatial_averaging_and_luminance_transfer (E : Ext)
    (originalImg firstPassOutput : Image) (config : AppConfig)
    (sched : List ℕ) : Image :=
  ⟨originalImg.width, originalImg.height,
   writeSched originalImg.width
     (fun i =>
       let xy := get_coordinates i originalImg.width
       pass2Pixel E originalImg firstPassOutput config xy.1 xy.2)
     sched emptyBuffer⟩

/-- Embeds `colorize` with explicit schedules for the two parallel
passes. -/
def colorizeSched (E : Ext) (img : Image) (config : AppConfig)
    (sched1 sched2 : List ℕ) : Image :=
  let firstPassOutput := apply_color_mapping_and_dithering E img config sched1
  apply_spatial_averaging_and_luminance_transfer E img firstPassOutput config sched2

/-- Embeds `colorize`: both passes over `0..width*height` (the canonical
schedule; scheduling independence is proved separately). -/
def colorize (E : Ext) (img : Image) (config : AppConfig) : Image :=
  colorizeSched E img config (List.range (img.width * img.height))
    (List.range (img.width * img.height))

/-- Cache invariant: every stored value is the canonical value for its
key.  The empty cache satisfies it, every insertion preserves it, and it
makes `memoized_find_closest_color` independent of the cache state. -/
def cacheConsistent (E : Ext) (colors : List Lab) (cache : Cache) : Prop :=
  ∀ k v, lookupCache cache k = some v → v = canonicalCacheValue E colors k

/-- A concrete instantiation of the external collaborators, used only to
exercise theorems on concrete inputs (squared-distance metric, identity
conversion). -/
def extSample : Ext where
  improvedDifference := fun p q =>
    (p.l - q.l) * (p.l - q.l) + (p.a - q.a) * (p.a - q.a) + (p.b - q.b) * (p.b - q.b)
  srgbToLab := fun r g b => ⟨r, g, b⟩
  labToRgb := fun _ => ⟨0, 0, 0⟩
  applyDithering := fun c _ _ => c
  computeIntegralImage := fun _ => ⟨fun _ _ => (0, 0, 0)⟩
  fastSpatialColorAverage := fun _ _ _ _ _ _ => ⟨0, 0, 0⟩

/-- A one-pixel sample image used by witnesses. -/
def imgSample : Image where
  width := 1
  height := 1
  pix := fun _ _ => ⟨10, 20, 30⟩

/-- A sample configuration with a one-entry palette, zero dithering,
radius zero and blend factor zero, used by witnesses. -/
def configSample : AppConfig where
  colors := [⟨50, 1, 2⟩]
  dither_amount := 0
  spatial_averaging_radius := 0
  blend_factor := 0

/-! ### Helper lemmas -/

theorem f32ToU8Sat_le (q : ℚ) : f32ToU8Sat q ≤ 255 := by
  unfold f32ToU8Sat
  split
  · exact Nat.zero_le _
  · exact min_le_right _ _

theorem u8clamp_of_le (n : ℕ) (h : n ≤ 255) : u8clamp n = n := by
  unfold u8clamp
  simp [Nat.min_eq_left h]

theorem blendChannel_truncSat (c1 c2 : ℕ) (f : ℚ) :
    truncSatOf ((c1 : ℚ) * f + (c2 : ℚ) * (1 - f)) (blendChannel c1 c2 f) := by
  have hle : f32ToU8Sat ((c1 : ℚ) * f + (c2 : ℚ) * (1 - f)) ≤ 255 := f32ToU8Sat_le _
  have hcl : blendChannel c1 c2 f = f32ToU8Sat ((c1 : ℚ) * f + (c2 : ℚ) * (1 - f)) :=
    u8clamp_of_le _ hle
  refine ⟨hcl ▸ hle, ?_, ?_⟩
  · intro hq
    rw [hcl]
    unfold f32ToU8Sat
    rw [if_neg (not_lt.mpr hq)]
  · intro hq
    rw [hcl]
    unfold f32ToU8Sat
    rw [if_pos hq]

theorem blendChannel_zero (c1 c2 : ℕ) (h : c2 ≤ 255) : blendChannel c1 c2 0 = c2 := by
  have hq : ((c1 : ℚ) * 0 + (c2 : ℚ) * (1 - 0)) = (c2 : ℚ) := by ring
  unfold blendChannel
  rw [hq]
  have : f32ToU8Sat (c2 : ℚ) = c2 := by
    unfold f32ToU8Sat
    rw [if_neg (not_lt.mpr (by positivity))]
    rw [Int.floor_natCast, Int.toNat_natCast]
    exact Nat.min_eq_left h
  rw [this]
  exact u8clamp_of_le _ h

theorem blendChannel_one (c1 c2 : ℕ) (h : c1 ≤ 255) : blendChannel c1 c2 1 = c1 := by
  have hq : ((c1 : ℚ) * 1 + (c2 : ℚ) * (1 - 1)) = (c1 : ℚ) := by ring
  unfold blendChannel
  rw [hq]
  have : f32ToU8Sat (c1 : ℚ) = c1 := by
    unfold f32ToU8Sat
    rw [if_neg (not_lt.mpr (by positivity))]
    rw [Int.floor_natCast, Int.toNat_natCast]
    exact Nat.min_eq_left h
  rw [this]
  exact u8clamp_of_le _ h

/-! ### Claim theorems -/

/-- C1: the code does NOT validate palette non-emptiness: `colorize`
starts the passes unconditionally and the first per-pixel palette query
reaches `find_closest_color`, whose `min_by(..).unwrap()` has no value on
an empty palette — modelled by the `none` result, i.e. a panic inside a
parallel worker rather than a configuration error returned up front. -/
theorem find_closest_color_empty_palette (E : Ext) (original : Lab) :
    find_closest_color E original [] = none := rfl

/-- C4 (corrected) counterexample: blending `3` toward `0` with factor
`1/4` gives intermediate `0.75`, which the code truncates to `0` while
the claimed round-to-nearest semantics gives `1` (all the `f32`
operations involved are exact at these inputs). -/
theorem blend_colors_not_round_nearest :
    blend_colors ⟨3, 3, 3⟩ ⟨0, 0, 0⟩ (1/4) ≠ blend_colors_specRounded ⟨3, 3, 3⟩ ⟨0, 0, 0⟩ (1/4) := by
  have hq : ((3 : ℕ) : ℚ) * (1/4) + ((0 : ℕ) : ℚ) * (1 - 1/4) = 3/4 := by norm_num
  have hfloor : (⌊(3/4 : ℚ)⌋ : ℤ) = 0 := by
    rw [Int.floor_eq_iff] <;> norm_num
  have hround : round (3/4 : ℚ) = 1 := by
    rw [round_eq]
    rw [show (3/4 : ℚ) + 1/2 = 5/4 by norm_num]
    rw [Int.floor_eq_iff] <;> norm_num
  intro h
  have hr := congrArg Rgb.r h
  rw [show (blend_colors ⟨3, 3, 3⟩ ⟨0, 0, 0⟩ (1/4)).r = blendChannel 3 0 (1/4) from rfl] at hr
  rw [show (blend_colors_specRounded ⟨3, 3, 3⟩ ⟨0, 0, 0⟩ (1/4)).r
      = blendChannelSpecRounded 3 0 (1/4) from rfl] at hr
  unfold blendChannel f32ToU8Sat u8clamp at hr
  unfold blendChannelSpecRounded at hr
  rw [hq] at hr
  rw [if_neg (by norm_num : ¬ (3/4 : ℚ) < 0), hfloor, hround] at hr
  norm_num at hr

/-- C4 (amended): each output channel of `blend_colors` is the linear
combination `f * recolored + (1 - f) * original` truncated toward zero
and saturated into `[0, 255]` (the Rust saturating `as u8` cast; the
subsequent `clamp(0, 255)` is the identity), NOT rounded to the nearest
integer; in particular every channel is bounded by 255 even when the
intermediate rational lies outside `[0, 255]`. -/
theorem blend_colors_truncates (c1 c2 : Rgb) (f : ℚ) :
    truncSatOf ((c1.r : ℚ) * f + (c2.r : ℚ) * (1 - f)) (blend_colors c1 c2 f).r
    ∧ truncSatOf ((c1.g : ℚ) * f + (c2.g : ℚ) * (1 - f)) (blend_colors c1 c2 f).g
    ∧ truncSatOf ((c1.b : ℚ) * f + (c2.b : ℚ) * (1 - f)) (blend_colors c1 c2 f).b :=
  ⟨blendChannel_truncSat c1.r c2.r f, blendChannel_truncSat c1.g c2.g f,
   blendChannel_truncSat c1.b c2.b f⟩

/-- C4 witness: the amended theorem applied at concrete inputs — a
saturating case (intermediate 300 maps to 255) and a truncating case
(intermediate 0.75 maps to 0). -/
theorem blend_colors_truncates_witness :
    (blend_colors ⟨200, 0, 0⟩ ⟨100, 0, 0⟩ 2).r = 255
    ∧ (blend_colors ⟨3, 3, 3⟩ ⟨0, 0, 0⟩ (1/4)).r = 0 := by
  constructor
  · have h := (blend_colors_truncates ⟨200, 0, 0⟩ ⟨100, 0, 0⟩ 2).1.2.1
    have hq : ((200 : ℕ) : ℚ) * 2 + ((100 : ℕ) : ℚ) * (1 - 2) = 300 := by norm_num
    rw [hq] at h
    have h300 : (⌊(300 : ℚ)⌋ : ℤ) = 300 := by
      rw [show ((300 : ℚ)) = ((300 : ℤ) : ℚ) by norm_num, Int.floor_intCast]
    rw [h (by norm_num), h300]
    rfl
  · have h := (blend_colors_truncates ⟨3, 3, 3⟩ ⟨0, 0, 0⟩ (1/4)).1.2.1
    have hq : ((3 : ℕ) : ℚ) * (1/4) + ((0 : ℕ) : ℚ) * (1 - 1/4) = 3/4 := by norm_num
    rw [hq] at h
    have hfloor : (⌊(3/4 : ℚ)⌋ : ℤ) = 0 := by
      rw [Int.floor_eq_iff] <;> norm_num
    rw [h (by norm_num), hfloor]
    rfl

/-- C6: the perceptual color pass 2 forms before conversion and blending
takes its lightness exactly from the original image at that coordinate
and its chroma exactly from the spatial average; moreover the lightness
does not depend on the spatial-averaging or integral-image functions at
all. -/
theorem pass2_lightness_transfer (E : Ext) (originalImg firstPassOutput : Image)
    (config : AppConfig) (x y : ℕ) :
    (pass2FinalLab E originalImg firstPassOutput config x y).l
        = (get_lab_color E originalImg x y).l
    ∧ (pass2FinalLab E originalImg firstPassOutput config x y).a
        = (E.fastSpatialColorAverage x y originalImg.width originalImg.height
            config.spatial_averaging_radius (E.computeIntegralImage firstPassOutput)).a
    ∧ (pass2FinalLab E originalImg firstPassOutput config x y).b
        = (E.fastSpatialColorAverage x y originalImg.width originalImg.height
            config.spatial_averaging_radius (E.computeIntegralImage firstPassOutput)).b
    ∧ ∀ (avgFn : ℕ → ℕ → ℕ → ℕ → ℕ → IntegralImage → Lab)
        (intFn : Image → IntegralImage),
        (pass2FinalLab
            { E with fastSpatialColorAverage := avgFn, computeIntegralImage := intFn }
            originalImg firstPassOutput config x y).l
          = (get_lab_color E originalImg x y).l :=
  ⟨rfl, rfl, rfl, fun _ _ => rfl⟩

theorem foldl_min_first (d : Lab → ℚ) :
    ∀ (rest : List Lab) (c : Lab),
      ∃ pre post,
        c :: rest
            = pre ++ (rest.foldl (fun acc x => if d x < d acc then x else acc) c) :: post
        ∧ (∀ x ∈ c :: rest,
            d (rest.foldl (fun acc x => if d x < d acc then x else acc) c) ≤ d x)
        ∧ (∀ x ∈ pre,
            d (rest.foldl (fun acc x => if d x < d acc then x else acc) c) < d x)
  | [], c => ⟨[], [], by simp, by simp, by simp⟩
  | r :: t, c => by
      have hstep : (r :: t).foldl (fun acc x => if d x < d acc then x else acc) c
          = t.foldl (fun acc x => if d x < d acc then x else acc) (if d r < d c then r else c) := by
        simp [List.foldl]
      by_cases hrc : d r < d c
      · obtain ⟨pre, post, hdec, hmin, hpre⟩ := foldl_min_first d t r
        rw [if_pos hrc] at hstep
        refine ⟨c :: pre, post, ?_, ?_, ?_⟩
        · rw [hstep, hdec]
          rfl
        · intro x hx
          rw [hstep]
          rcases List.mem_cons.mp hx with hc | hx
          · subst hc
            exact le_of_lt (lt_of_le_of_lt (hmin r (List.mem_cons_self r t)) hrc)
          · exact hmin x hx
        · intro x hx
          rw [hstep]
          rcases List.mem_cons.mp hx with hc | hx
          · subst hc
            exact lt_of_le_of_lt (hmin r (List.mem_cons_self r t)) hrc
          · exact hpre x hx
      · obtain ⟨pre, post, hdec, hmin, hpre⟩ := foldl_min_first d t c
        rw [if_neg hrc] at hstep
        have hcr : d c ≤ d r := not_lt.mp hrc
        cases pre with
        | nil =>
            have hm : t.foldl (fun acc x => if d x < d acc then x else acc) c = c := by
              have h2 := hdec
              simp only [List.nil_append] at h2
              injection h2 with h1 _
              exact h1.symm
            refine ⟨[], r :: t, ?_, ?_, ?_⟩
            · rw [hstep, hm]
              rfl
            · intro x hx
              rw [hstep, hm]
              rcases List.mem_cons.mp hx with hc | hx
              · subst hc
                exact le_refl _
              · rcases List.mem_cons.mp hx with hr | hx
                · subst hr
                  exact hcr
                · have := hmin x (List.mem_cons_of_mem c hx)
                  rw [hm] at this
                  exact this
            · intro x hx
              exact absurd hx (List.not_mem_nil x)
        | cons p pre₂ =>
            have hp : p = c ∧ t = pre₂ ++ (t.foldl (fun acc x => if d x < d acc then x else acc) c) :: post := by
              have h2 := hdec
              rw [List.cons_append] at h2
              injection h2 with h1 h3
              exact ⟨h1.symm, h3⟩
            refine ⟨c :: r :: pre₂, post, ?_, ?_, ?_⟩
            · rw [hstep]
              rw [List.cons_append, List.cons_append]
              rw [← hp.2]
            · intro x hx
              rw [hstep]
              rcases List.mem_cons.mp hx with hc | hx
              · rw [hc]
                exact hmin c (List.mem_cons_self c t)
              · rcases List.mem_cons.mp hx with hr | hx
                · subst hr
                  have hstrict := hpre p (by rw [hp.1]; exact List.mem_cons_self c pre₂)
                  rw [hp.1] at hstrict
                  exact le_of_lt (lt_of_lt_of_le hstrict hcr)
                · exact hmin x (List.mem_cons_of_mem c hx)
            · intro x hx
              rw [hstep]
              have hstrictc := hpre p (by rw [hp.1]; exact List.mem_cons_self c pre₂)
              rw [hp.1] at hstrictc
              rcases List.mem_cons.mp hx with hc | hx
              · rw [hc]
                exact hstrictc
              · rcases List.mem_cons.mp hx with hr | hx
                · subst hr
                  exact lt_of_lt_of_le hstrictc hcr
                · exact hpre x (List.mem_cons_of_mem p hx)

/-- C2: for a non-empty palette, `find_closest_color` returns a palette
entry minimizing the perceptual difference from the query color, and
among equal minima it returns the first in palette order (every entry
strictly before it has strictly larger difference). -/
theorem find_closest_color_min_first (E : Ext) (original : Lab) (colors : List Lab)
    (hne : colors ≠ []) :
    ∃ m pre post,
      find_closest_color E original colors = some m
      ∧ colors = pre ++ m :: post
      ∧ (∀ x ∈ colors, E.improvedDifference original m ≤ E.improvedDifference original x)
      ∧ (∀ x ∈ pre, E.improvedDifference original m < E.improvedDifference original x) := by
  cases colors with
  | nil => exact absurd rfl hne
  | cons c rest =>
      obtain ⟨pre, post, hdec, hmin, hpre⟩ :=
        foldl_min_first (fun x => E.improvedDifference original x) rest c
      exact ⟨_, pre, post, rfl, hdec, hmin, hpre⟩

/-- C2 witness: on the two-entry palette, the query sits strictly closer
to the second entry, which is returned. -/
theorem find_closest_color_min_first_witness :
    (([Lab.mk 9 9 9, Lab.mk 1 1 1] : List Lab) ≠ [])
    ∧ ∃ m pre post,
        find_closest_color extSample ⟨0, 0, 0⟩ [Lab.mk 9 9 9, Lab.mk 1 1 1] = some m
        ∧ ([Lab.mk 9 9 9, Lab.mk 1 1 1] : List Lab) = pre ++ m :: post
        ∧ (∀ x ∈ ([Lab.mk 9 9 9, Lab.mk 1 1 1] : List Lab),
            extSample.improvedDifference ⟨0, 0, 0⟩ m ≤ extSample.improvedDifference ⟨0, 0, 0⟩ x)
        ∧ (∀ x ∈ pre,
            extSample.improvedDifference ⟨0, 0, 0⟩ m < extSample.improvedDifference ⟨0, 0, 0⟩ x) :=
  ⟨List.cons_ne_nil _ _,
   find_closest_color_min_first extSample ⟨0, 0, 0⟩ [Lab.mk 9 9 9, Lab.mk 1 1 1]
     (List.cons_ne_nil _ _)⟩

theorem foldl_nanAware_some (d : Lab → Option ℚ) :
    ∀ (t : List Lab) (a : Lab), (d a).isSome → (∀ x ∈ t, (d x).isSome) →
      ∃ m, (t.foldl
          (fun acc x =>
            match acc with
            | none => none
            | some a =>
              match d a, d x with
              | some da, some dx => some (if dx < da then x else a)
              | _, _ => none)
          (some a)) = some m
        ∧ (d m).isSome ∧ (m = a ∨ m ∈ t)
  | [], a, ha, _ => ⟨a, rfl, ha, Or.inl rfl⟩
  | x :: t2, a, ha, hall => by
      obtain ⟨da, hda⟩ := Option.isSome_iff_exists.mp ha
      obtain ⟨dx, hdx⟩ := Option.isSome_iff_exists.mp (hall x (List.mem_cons_self x t2))
      have hstep : ((x :: t2).foldl
          (fun acc x =>
            match acc with
            | none => none
            | some a =>
              match d a, d x with
              | some da, some dx => some (if dx < da then x else a)
              | _, _ => none)
          (some a))
          = (t2.foldl
          (fun acc x =>
            match acc with
            | none => none
            | some a =>
              match d a, d x with
              | some da, some dx => some (if dx < da then x else a)
              | _, _ => none)
          (some (if dx < da then x else a))) := by
        simp only [List.foldl, hda, hdx]
      have ha2 : (d (if dx < da then x else a)).isSome := by
        by_cases hlt : dx < da
        · rw [if_pos hlt, hdx]; rfl
        · rw [if_neg hlt, hda]; rfl
      obtain ⟨m, hm, hdm, hmem⟩ :=
        foldl_nanAware_some d t2 (if dx < da then x else a) ha2
          (fun z hz => hall z (List.mem_cons_of_mem x hz))
      refine ⟨m, by rw [hstep]; exact hm, hdm, ?_⟩
      rcases hmem with hm2 | hm2
      · by_cases hlt : dx < da
        · rw [if_pos hlt] at hm2
          exact Or.inr (hm2 ▸ List.mem_cons_self x t2)
        · rw [if_neg hlt] at hm2
          exact Or.inl hm2
      · exact Or.inr (List.mem_cons_of_mem x hm2)

/-- C10: with a non-empty palette and no NaN among the differences from
the query color to the palette entries, the two `unwrap()` calls in
`find_closest_color` cannot panic: the NaN-aware model returns `some`
palette entry (a `none` result is exactly a panic). -/
theorem find_closest_color_no_nan_total (d : Lab → Option ℚ) (colors : List Lab)
    (hne : colors ≠ []) (hnan : ∀ x ∈ colors, (d x).isSome) :
    ∃ m, find_closest_color_nanAware d colors = some m ∧ m ∈ colors := by
  cases colors with
  | nil => exact absurd rfl hne
  | cons c rest =>
      obtain ⟨m, hm, _, hmem⟩ :=
        foldl_nanAware_some d rest c (hnan c (List.mem_cons_self c rest))
          (fun z hz => hnan z (List.mem_cons_of_mem c hz))
      refine ⟨m, hm, ?_⟩
      rcases hmem with h | h
      · exact h ▸ List.mem_cons_self c rest
      · exact List.mem_cons_of_mem c h

/-- C10 witness: a singleton palette with a defined (non-NaN) difference
is matched without panicking. -/
theorem find_closest_color_no_nan_total_witness :
    (([Lab.mk 5 5 5] : List Lab) ≠ [])
    ∧ (∀ x ∈ ([Lab.mk 5 5 5] : List Lab), ((fun _ => some (0 : ℚ)) x).isSome)
    ∧ ∃ m, find_closest_color_nanAware (fun _ => some (0 : ℚ)) [Lab.mk 5 5 5] = some m
        ∧ m ∈ ([Lab.mk 5 5 5] : List Lab) :=
  ⟨List.cons_ne_nil _ _, fun _ _ => rfl,
   find_closest_color_no_nan_total (fun _ => some (0 : ℚ)) [Lab.mk 5 5 5]
     (List.cons_ne_nil _ _) (fun _ _ => rfl)⟩

theorem find_closest_color_some (E : Ext) (original : Lab) (colors : List Lab)
    (hne : colors ≠ []) :
    ∃ m, find_closest_color E original colors = some m := by
  cases colors with
  | nil => exact absurd rfl hne
  | cons c rest => exact ⟨_, rfl⟩

theorem memoized_hit (E : Ext) (cache : Cache) (pixel : Rgb) (colors : List Lab)
    (lab : Lab) (h : lookupCache cache (pixel.r, pixel.g, pixel.b) = some lab) :
    memoized_find_closest_color E cache pixel colors = (lab, cache) := by
  unfold memoized_find_closest_color
  simp only [h]

theorem memoized_miss_eq (E : Ext) (cache : Cache) (pixel : Rgb) (colors : List Lab)
    (h : lookupCache cache (pixel.r, pixel.g, pixel.b) = none) :
    memoized_find_closest_color E cache pixel colors
      = (canonicalCacheValue E colors (pixel.r, pixel.g, pixel.b),
         ((pixel.r, pixel.g, pixel.b),
          canonicalCacheValue E colors (pixel.r, pixel.g, pixel.b)) :: cache) := by
  unfold memoized_find_closest_color canonicalCacheValue
  simp only [h]

/-- C3: on a cache miss with a non-empty palette,
`memoized_find_closest_color` returns the perceptual color combining the
lightness of the converted original pixel with the chroma of the nearest
palette entry, and stores exactly that value under the exact 3-channel
key. -/
theorem memoized_miss_stores_lightness_chroma (E : Ext) (cache : Cache) (pixel : Rgb)
    (colors : List Lab)
    (hmiss : lookupCache cache (pixel.r, pixel.g, pixel.b) = none)
    (hne : colors ≠ []) :
    ∃ m, find_closest_color E
          (E.srgbToLab ((pixel.r : ℚ) / 255) ((pixel.g : ℚ) / 255) ((pixel.b : ℚ) / 255))
          colors = some m
      ∧ (memoized_find_closest_color E cache pixel colors).1
          = Lab.mk
              (E.srgbToLab ((pixel.r : ℚ) / 255) ((pixel.g : ℚ) / 255)
                ((pixel.b : ℚ) / 255)).l
              m.a m.b
      ∧ lookupCache (memoized_find_closest_color E cache pixel colors).2
          (pixel.r, pixel.g, pixel.b)
          = some ((memoized_find_closest_color E cache pixel colors).1) := by
  obtain ⟨m, hfind⟩ :=
    find_closest_color_some E
      (E.srgbToLab ((pixel.r : ℚ) / 255) ((pixel.g : ℚ) / 255) ((pixel.b : ℚ) / 255))
      colors hne
  have hmeq := memoized_miss_eq E cache pixel colors hmiss
  refine ⟨m, hfind, ?_, ?_⟩
  · rw [hmeq]
    unfold canonicalCacheValue
    simp only [hfind, Option.getD_some]
  · rw [hmeq]
    simp [lookupCache]

/-- C3 witness: a concrete miss on the empty cache with a one-entry
palette computes, returns and stores the lightness/chroma recombination. -/
theorem memoized_miss_stores_lightness_chroma_witness :
    lookupCache [] ((10 : ℕ), (20 : ℕ), (30 : ℕ)) = none
    ∧ ∃ m, find_closest_color extSample
          (extSample.srgbToLab (((10 : ℕ) : ℚ) / 255) (((20 : ℕ) : ℚ) / 255)
            (((30 : ℕ) : ℚ) / 255)) [Lab.mk 50 1 2] = some m
      ∧ (memoized_find_closest_color extSample [] ⟨10, 20, 30⟩ [Lab.mk 50 1 2]).1
          = Lab.mk
              (extSample.srgbToLab (((10 : ℕ) : ℚ) / 255) (((20 : ℕ) : ℚ) / 255)
                (((30 : ℕ) : ℚ) / 255)).l
              m.a m.b
      ∧ lookupCache (memoized_find_closest_color extSample [] ⟨10, 20, 30⟩ [Lab.mk 50 1 2]).2
          ((10 : ℕ), (20 : ℕ), (30 : ℕ))
          = some ((memoized_find_closest_color extSample [] ⟨10, 20, 30⟩ [Lab.mk 50 1 2]).1) :=
  ⟨rfl,
   memoized_miss_stores_lightness_chroma extSample [] ⟨10, 20, 30⟩ [Lab.mk 50 1 2]
     rfl (List.cons_ne_nil _ _)⟩

/-- C7: calling `memoized_find_closest_color` twice with the same pixel
and palette against the evolving cache yields the same value twice, and
the second call is a cache hit returning exactly the value stored by the
first call. -/
theorem memoized_idempotent (E : Ext) (cache : Cache) (pixel : Rgb)
    (colors : List Lab) (hne : colors ≠ []) :
    (memoized_find_closest_color E
        (memoized_find_closest_color E cache pixel colors).2 pixel colors).1
      = (memoized_find_closest_color E cache pixel colors).1
    ∧ lookupCache (memoized_find_closest_color E cache pixel colors).2
        (pixel.r, pixel.g, pixel.b)
      = some ((memoized_find_closest_color E cache pixel colors).1) := by
  cases h : lookupCache cache (pixel.r, pixel.g, pixel.b) with
  | some lab =>
      have h1 := memoized_hit E cache pixel colors lab h
      rw [h1]
      exact ⟨by rw [h1], h⟩
  | none =>
      have h1 := memoized_miss_eq E cache pixel colors h
      rw [h1]
      have h2 : lookupCache
          (((pixel.r, pixel.g, pixel.b),
            canonicalCacheValue E colors (pixel.r, pixel.g, pixel.b)) :: cache)
          (pixel.r, pixel.g, pixel.b)
          = some (canonicalCacheValue E colors (pixel.r, pixel.g, pixel.b)) := by
        simp [lookupCache]
      exact ⟨by rw [memoized_hit E _ pixel colors _ h2], h2⟩

/-- C7 witness: two consecutive memoized calls on a fresh cache agree,
and the intermediate cache holds the first result under the pixel key. -/
theorem memoized_idempotent_witness :
    (memoized_find_closest_color extSample
        (memoized_find_closest_color extSample [] ⟨10, 20, 30⟩ [Lab.mk 50 1 2]).2
        ⟨10, 20, 30⟩ [Lab.mk 50 1 2]).1
      = (memoized_find_closest_color extSample [] ⟨10, 20, 30⟩ [Lab.mk 50 1 2]).1
    ∧ lookupCache (memoized_find_closest_color extSample [] ⟨10, 20, 30⟩ [Lab.mk 50 1 2]).2
        ((10 : ℕ), (20 : ℕ), (30 : ℕ))
      = some ((memoized_find_closest_color extSample [] ⟨10, 20, 30⟩ [Lab.mk 50 1 2]).1) :=
  memoized_idempotent extSample [] ⟨10, 20, 30⟩ [Lab.mk 50 1 2] (List.cons_ne_nil _ _)

theorem cacheConsistent_nil (E : Ext) (colors : List Lab) :
    cacheConsistent E colors [] := by
  intro k v h
  cases h

theorem cacheConsistent_insert (E : Ext) (colors : List Lab) (cache : Cache) (k : Key)
    (hc : cacheConsistent E colors cache) :
    cacheConsistent E colors ((k, canonicalCacheValue E colors k) :: cache) := by
  intro k2 v2 h
  rw [show lookupCache ((k, canonicalCacheValue E colors k) :: cache) k2
      = if k = k2 then some (canonicalCacheValue E colors k) else lookupCache cache k2
      from rfl] at h
  by_cases hk : k = k2
  · rw [if_pos hk] at h
    injection h with h2
    rw [← h2, ← hk]
  · rw [if_neg hk] at h
    exact hc k2 v2 h

theorem memoized_consistent_val (E : Ext) (cache : Cache) (pixel : Rgb)
    (colors : List Lab) (hc : cacheConsistent E colors cache) :
    (memoized_find_closest_color E cache pixel colors).1
        = canonicalCacheValue E colors (pixel.r, pixel.g, pixel.b)
    ∧ cacheConsistent E colors (memoized_find_closest_color E cache pixel colors).2 := by
  cases h : lookupCache cache (pixel.r, pixel.g, pixel.b) with
  | some lab =>
      rw [memoized_hit E cache pixel colors lab h]
      exact ⟨hc _ _ h, hc⟩
  | none =>
      rw [memoized_miss_eq E cache pixel colors h]
      exact ⟨rfl, cacheConsistent_insert E colors cache _ hc⟩

theorem coord_eq_iff (w i x y : ℕ) (hw : 0 < w) :
    (x = i % w ∧ y = i / w) ↔ (x < w ∧ i = w * y + x) := by
  constructor
  · rintro ⟨hx, hy⟩
    subst hx
    subst hy
    exact ⟨Nat.mod_lt i hw, (Nat.div_add_mod i w).symm⟩
  · rintro ⟨hx, hi⟩
    subst hi
    constructor
    · rw [Nat.mul_add_mod]
      exact (Nat.mod_eq_of_lt hx).symm
    · rw [Nat.mul_add_div hw]
      rw [Nat.div_eq_of_lt hx]
      omega

theorem writeSched_apply (w : ℕ) (hw : 0 < w) (val : ℕ → Rgb) :
    ∀ (s : List ℕ) (buf : Buffer) (x y : ℕ),
      writeSched w val s buf x y
        = if x < w ∧ (w * y + x) ∈ s then val (w * y + x) else buf x y
  | [], buf, x, y => by
      simp [writeSched]
  | i :: rest, buf, x, y => by
      rw [show writeSched w val (i :: rest) buf
          = writeSched w val rest (putPixel buf (i % w) (i / w) (val i)) from rfl]
      rw [writeSched_apply w hw val rest]
      by_cases hx : x < w
      · by_cases hr : (w * y + x) ∈ rest
        · rw [if_pos ⟨hx, hr⟩, if_pos ⟨hx, List.mem_cons_of_mem i hr⟩]
        · rw [if_neg (fun hcon => hr hcon.2)]
          by_cases hi : i = w * y + x
          · have hco : x = i % w ∧ y = i / w :=
              (coord_eq_iff w i x y hw).mpr ⟨hx, hi⟩
            rw [show putPixel buf (i % w) (i / w) (val i) x y
                = if x = i % w ∧ y = i / w then val i else buf x y from rfl]
            rw [if_pos hco]
            rw [if_pos ⟨hx, show w * y + x ∈ i :: rest by
              rw [← hi]; exact List.mem_cons_self i rest⟩]
            rw [hi]
          · rw [show putPixel buf (i % w) (i / w) (val i) x y
                = if x = i % w ∧ y = i / w then val i else buf x y from rfl]
            rw [if_neg (fun hco : x = i % w ∧ y = i / w =>
              hi ((coord_eq_iff w i x y hw).mp hco).2)]
            rw [if_neg]
            rintro ⟨-, hmem⟩
            rcases List.mem_cons.mp hmem with hh | hh
            · exact hi hh.symm
            · exact hr hh
      · rw [if_neg (fun hcon => hx hcon.1), if_neg (fun hcon => hx hcon.1)]
        rw [show putPixel buf (i % w) (i / w) (val i) x y
            = if x = i % w ∧ y = i / w then val i else buf x y from rfl]
        rw [if_neg (fun hco : x = i % w ∧ y = i / w =>
          hx (by rw [hco.1]; exact Nat.mod_lt i hw))]

theorem writeSched_no_members (w : ℕ) (val : ℕ → Rgb) :
    ∀ (s : List ℕ) (buf : Buffer), (∀ i, i ∉ s) → writeSched w val s buf = buf
  | [], _, _ => rfl
  | i :: rest, buf, h => absurd (List.mem_cons_self i rest) (h i)

theorem writeSched_range_eq (w hh : ℕ) (val : ℕ → Rgb) (s1 s2 : List ℕ)
    (hs1 : ∀ i, i ∈ s1 ↔ i < w * hh) (hs2 : ∀ i, i ∈ s2 ↔ i < w * hh) (x y : ℕ) :
    writeSched w val s1 emptyBuffer x y = writeSched w val s2 emptyBuffer x y := by
  by_cases hw : 0 < w
  · rw [writeSched_apply w hw val s1, writeSched_apply w hw val s2]
    by_cases hcond : x < w ∧ w * y + x < w * hh
    · rw [if_pos ⟨hcond.1, (hs1 _).mpr hcond.2⟩, if_pos ⟨hcond.1, (hs2 _).mpr hcond.2⟩]
    · rw [if_neg (fun hcon => hcond ⟨hcon.1, (hs1 _).mp hcon.2⟩),
          if_neg (fun hcon => hcond ⟨hcon.1, (hs2 _).mp hcon.2⟩)]
  · have hw0 : w = 0 := Nat.eq_zero_of_not_pos hw
    have hempty : ∀ (s : List ℕ), (∀ i, i ∈ s ↔ i < w * hh) → ∀ i, i ∉ s := by
      intro s hs i hmem
      have := (hs i).mp hmem
      rw [hw0] at this
      exact absurd this (by simp)
    rw [writeSched_no_members w val s1 emptyBuffer (hempty s1 hs1),
        writeSched_no_members w val s2 emptyBuffer (hempty s2 hs2)]

theorem pass1Step_eq (E : Ext) (img : Image) (config : AppConfig)
    (cache : Cache) (buf : Buffer) (i : ℕ) :
    pass1Step E img config (cache, buf) i
      = ((memoized_find_closest_color E cache (img.pix (i % img.width) (i / img.width))
            config.colors).2,
         putPixel buf (i % img.width) (i / img.width)
           (E.labToRgb (E.applyDithering
             (memoized_find_closest_color E cache (img.pix (i % img.width) (i / img.width))
               config.colors).1
             (memoized_find_closest_color E cache (img.pix (i % img.width) (i / img.width))
               config.colors).1
             config.dither_amount))) := rfl

theorem pass1_foldl_eq (E : Ext) (img : Image) (config : AppConfig) :
    ∀ (sched : List ℕ) (cache : Cache) (buf : Buffer),
      cacheConsistent E config.colors cache →
      (sched.foldl (pass1Step E img config) (cache, buf)).2
          = writeSched img.width (pass1Canon E img config) sched buf
        ∧ cacheConsistent E config.colors
            ((sched.foldl (pass1Step E img config) (cache, buf)).1)
  | [], cache, buf, hc => ⟨rfl, hc⟩
  | i :: rest, cache, buf, hc => by
      obtain ⟨hval, hcons⟩ :=
        memoized_consistent_val E cache (img.pix (i % img.width) (i / img.width))
          config.colors hc
      rw [show List.foldl (pass1Step E img config) (cache, buf) (i :: rest)
          = List.foldl (pass1Step E img config)
              (pass1Step E img config (cache, buf) i) rest from rfl]
      rw [pass1Step_eq, hval]
      obtain ⟨h1, h2⟩ := pass1_foldl_eq E img config rest
        ((memoized_find_closest_color E cache (img.pix (i % img.width) (i / img.width))
          config.colors).2)
        (putPixel buf (i % img.width) (i / img.width)
          (E.labToRgb (E.applyDithering
            (canonicalCacheValue E config.colors
              ((img.pix (i % img.width) (i / img.width)).r,
               (img.pix (i % img.width) (i / img.width)).g,
               (img.pix (i % img.width) (i / img.width)).b))
            (canonicalCacheValue E config.colors
              ((img.pix (i % img.width) (i / img.width)).r,
               (img.pix (i % img.width) (i / img.width)).g,
               (img.pix (i % img.width) (i / img.width)).b))
            config.dither_amount)))
        hcons
      exact ⟨h1, h2⟩

theorem pass1_image_eq (E : Ext) (img : Image) (config : AppConfig) (sched : List ℕ) :
    apply_color_mapping_and_dithering E img config sched
      = ⟨img.width, img.height,
         writeSched img.width (pass1Canon E img config) sched emptyBuffer⟩ := by
  have h := (pass1_foldl_eq E img config sched [] emptyBuffer
    (cacheConsistent_nil E config.colors)).1
  unfold apply_color_mapping_and_dithering
  show Image.mk img.width img.height
      (List.foldl (pass1Step E img config) ([], emptyBuffer) sched).2 = _
  rw [h]

theorem pass2_pix (E : Ext) (originalImg firstPassOutput : Image) (config : AppConfig)
    (sched : List ℕ) (x y : ℕ) (hx : x < originalImg.width)
    (hmem : (originalImg.width * y + x) ∈ sched) :
    (apply_spatial_averaging_and_luminance_transfer E originalImg firstPassOutput
        config sched).pix x y
      = pass2Pixel E originalImg firstPassOutput config x y := by
  have hw : 0 < originalImg.width := lt_of_le_of_lt (Nat.zero_le x) hx
  show writeSched originalImg.width _ sched emptyBuffer x y = _
  rw [writeSched_apply originalImg.width hw _ sched emptyBuffer x y]
  rw [if_pos ⟨hx, hmem⟩]
  have hmod : (originalImg.width * y + x) % originalImg.width = x := by
    rw [Nat.mul_add_mod]
    exact Nat.mod_eq_of_lt hx
  have hdiv : (originalImg.width * y + x) / originalImg.width = y := by
    rw [Nat.mul_add_div hw]
    rw [Nat.div_eq_of_lt hx]
    omega
  show pass2Pixel E originalImg firstPassOutput config
      ((originalImg.width * y + x) % originalImg.width)
      ((originalImg.width * y + x) / originalImg.width) = _
  rw [hmod, hdiv]

/-- C8: with dithering held at amount 0, `colorize` is a deterministic
function of the image and configuration: any two runs, each with a fresh
cache and each processing the pixel indices of the two passes in
arbitrary worker orders (any schedules covering exactly the index range,
repetitions allowed), produce identical output images. -/
theorem colorize_schedule_deterministic (E : Ext) (img : Image) (config : AppConfig)
    (s1 s2 t1 t2 : List ℕ)
    (hdither : config.dither_amount = 0)
    (hs1 : ∀ i, i ∈ s1 ↔ i < img.width * img.height)
    (hs2 : ∀ i, i ∈ s2 ↔ i < img.width * img.height)
    (ht1 : ∀ i, i ∈ t1 ↔ i < img.width * img.height)
    (ht2 : ∀ i, i ∈ t2 ↔ i < img.width * img.height) :
    (colorizeSched E img config s1 t1).width = (colorizeSched E img config s2 t2).width
    ∧ (colorizeSched E img config s1 t1).height = (colorizeSched E img config s2 t2).height
    ∧ ∀ x y, (colorizeSched E img config s1 t1).pix x y
        = (colorizeSched E img config s2 t2).pix x y := by
  have hpass1 : apply_color_mapping_and_dithering E img config s1
      = apply_color_mapping_and_dithering E img config s2 := by
    rw [pass1_image_eq, pass1_image_eq]
    have hfun : writeSched img.width (pass1Canon E img config) s1 emptyBuffer
        = writeSched img.width (pass1Canon E img config) s2 emptyBuffer := by
      funext x y
      exact writeSched_range_eq img.width img.height (pass1Canon E img config)
        s1 s2 hs1 hs2 x y
    rw [hfun]
  have hunfold : ∀ s t, colorizeSched E img config s t
      = apply_spatial_averaging_and_luminance_transfer E img
          (apply_color_mapping_and_dithering E img config s) config t := fun _ _ => rfl
  rw [hunfold s1 t1, hunfold s2 t2, hpass1]
  refine ⟨rfl, rfl, ?_⟩
  intro x y
  show writeSched img.width _ t1 emptyBuffer x y
      = writeSched img.width _ t2 emptyBuffer x y
  exact writeSched_range_eq img.width img.height _ t1 t2 ht1 ht2 x y

/-- C8 witness: on the one-pixel sample image, a run whose schedules
visit the single index once and a run whose schedules visit it twice
agree at the pixel. -/
theorem colorize_schedule_deterministic_witness :
    configSample.dither_amount = 0
    ∧ (colorizeSched extSample imgSample configSample [0] [0]).pix 0 0
        = (colorizeSched extSample imgSample configSample [0, 0] [0, 0]).pix 0 0 :=
  ⟨rfl,
   (colorize_schedule_deterministic extSample imgSample configSample [0] [0, 0] [0] [0, 0]
      rfl
      (fun i => by show i ∈ [0] ↔ i < 1 * 1; simp [Nat.lt_one_iff])
      (fun i => by show i ∈ [0, 0] ↔ i < 1 * 1; simp [Nat.lt_one_iff])
      (fun i => by show i ∈ [0] ↔ i < 1 * 1; simp [Nat.lt_one_iff])
      (fun i => by show i ∈ [0, 0] ↔ i < 1 * 1; simp [Nat.lt_one_iff])).2.2 0 0⟩

/-- C9: for positive width, the index-to-coordinate map
`i ↦ (i mod width, i div width)` restricted to `[0, width*height)` lands
in the coordinate grid, is injective, and is surjective onto the grid —
so each pass writes every coordinate of its output buffer exactly once —
and `colorize` preserves the input dimensions. -/
theorem get_coordinates_bijection (w hh : ℕ) :
    (∀ i, i < w * hh → (get_coordinates i w).1 < w ∧ (get_coordinates i w).2 < hh)
    ∧ (∀ i j, i < w * hh → j < w * hh →
        get_coordinates i w = get_coordinates j w → i = j)
    ∧ (∀ x y, x < w → y < hh → ∃ i, i < w * hh ∧ get_coordinates i w = (x, y))
    ∧ (∀ (E : Ext) (img : Image) (config : AppConfig),
        (colorize E img config).width = img.width
        ∧ (colorize E img config).height = img.height) := by
  refine ⟨?_, ?_, ?_, ?_⟩
  · intro i hi
    have hw : 0 < w := by
      rcases Nat.eq_zero_or_pos w with h0 | h
      · rw [h0, zero_mul] at hi
        exact absurd hi (Nat.not_lt_zero i)
      · exact h
    refine ⟨Nat.mod_lt i hw, ?_⟩
    rw [show (get_coordinates i w).2 = i / w from rfl]
    rw [Nat.div_lt_iff_lt_mul hw]
    rw [mul_comm] at hi
    exact hi
  · intro i j _ _ hcoord
    have h1 : i % w = j % w := congrArg Prod.fst hcoord
    have h2 : i / w = j / w := congrArg Prod.snd hcoord
    calc i = w * (i / w) + i % w := (Nat.div_add_mod i w).symm
      _ = w * (j / w) + j % w := by rw [h1, h2]
      _ = j := Nat.div_add_mod j w
  · intro x y hx hy
    have hw : 0 < w := lt_of_le_of_lt (Nat.zero_le x) hx
    refine ⟨w * y + x, ?_, ?_⟩
    · calc w * y + x < w * y + w := Nat.add_lt_add_left hx _
        _ = w * (y + 1) := by ring
        _ ≤ w * hh := Nat.mul_le_mul_left w (Nat.succ_le_of_lt hy)
    · have hco : x = (w * y + x) % w ∧ y = (w * y + x) / w :=
        (coord_eq_iff w (w * y + x) x y hw).mpr ⟨hx, rfl⟩
      unfold get_coordinates
      rw [← hco.1, ← hco.2]
  · intro E img config
    exact ⟨rfl, rfl⟩

/-- C5: blend factor 0 returns the original pixel exactly and blend
factor 1 returns the recolored pixel exactly (for in-range 8-bit
channels, with no rounding error: the `f32` products and sums involved
are exact); consequently `colorize` with blend factor 0 reproduces the
original image at every coordinate. -/
theorem blend_factor_endpoints :
    (∀ c1 c2 : Rgb, c2.r ≤ 255 → c2.g ≤ 255 → c2.b ≤ 255 → blend_colors c1 c2 0 = c2)
    ∧ (∀ c1 c2 : Rgb, c1.r ≤ 255 → c1.g ≤ 255 → c1.b ≤ 255 → blend_colors c1 c2 1 = c1)
    ∧ (∀ (E : Ext) (img : Image) (config : AppConfig) (x y : ℕ),
        config.blend_factor = 0 →
        (∀ a b, (img.pix a b).r ≤ 255 ∧ (img.pix a b).g ≤ 255 ∧ (img.pix a b).b ≤ 255) →
        x < img.width → y < img.height →
        (colorize E img config).pix x y = img.pix x y) := by
  have hzero : ∀ c1 c2 : Rgb, c2.r ≤ 255 → c2.g ≤ 255 → c2.b ≤ 255 →
      blend_colors c1 c2 0 = c2 := by
    intro c1 c2 hr hg hb
    have h : blend_colors c1 c2 0 = ⟨c2.r, c2.g, c2.b⟩ := by
      unfold blend_colors
      rw [blendChannel_zero _ _ hr, blendChannel_zero _ _ hg, blendChannel_zero _ _ hb]
    rw [h]
  have hone : ∀ c1 c2 : Rgb, c1.r ≤ 255 → c1.g ≤ 255 → c1.b ≤ 255 →
      blend_colors c1 c2 1 = c1 := by
    intro c1 c2 hr hg hb
    have h : blend_colors c1 c2 1 = ⟨c1.r, c1.g, c1.b⟩ := by
      unfold blend_colors
      rw [blendChannel_one _ _ hr, blendChannel_one _ _ hg, blendChannel_one _ _ hb]
    rw [h]
  refine ⟨hzero, hone, ?_⟩
  intro E img config x y hbf hbound hx hy
  have hmem : img.width * y + x < img.width * img.height := by
    calc img.width * y + x < img.width * y + img.width := Nat.add_lt_add_left hx _
      _ = img.width * (y + 1) := by ring
      _ ≤ img.width * img.height := Nat.mul_le_mul_left _ (Nat.succ_le_of_lt hy)
  have h2 := pass2_pix E img
    (apply_color_mapping_and_dithering E img config (List.range (img.width * img.height)))
    config (List.range (img.width * img.height)) x y hx (List.mem_range.mpr hmem)
  show (apply_spatial_averaging_and_luminance_transfer E img
      (apply_color_mapping_and_dithering E img config (List.range (img.width * img.height)))
      config (List.range (img.width * img.height))).pix x y = img.pix x y
  rw [h2]
  unfold pass2Pixel
  rw [hbf]
  exact hzero _ _ (hbound x y).1 (hbound x y).2.1 (hbound x y).2.2

/-- C5 witness: the endpoint identities at concrete pixels, and the full
pipeline at blend factor 0 on the one-pixel sample image returning the
original pixel. -/
theorem blend_factor_endpoints_witness :
    blend_colors ⟨0, 0, 0⟩ ⟨1, 2, 3⟩ 0 = ⟨1, 2, 3⟩
    ∧ blend_colors ⟨4, 5, 6⟩ ⟨7, 8, 9⟩ 1 = ⟨4, 5, 6⟩
    ∧ (colorize extSample imgSample configSample).pix 0 0 = imgSample.pix 0 0 :=
  ⟨blend_factor_endpoints.1 ⟨0, 0, 0⟩ ⟨1, 2, 3⟩ (by decide) (by decide) (by decide),
   blend_factor_endpoints.2.1 ⟨4, 5, 6⟩ ⟨7, 8, 9⟩ (by decide) (by decide) (by decide),
   blend_factor_endpoints.2.2 extSample imgSample configSample 0 0 rfl
     (fun _ _ => ⟨by norm_num [imgSample], by norm_num [imgSample], by norm_num [imgSample]⟩)
     (by decide) (by decide)⟩

end Colorizer
